import Mathlib

/-!
Verification of the OpenAPI schema resolver, example synthesizer and
endpoint indexer of the kohlrabi documentation renderer
(src/lib/main.js, class OpenAPIParser, canonical copy at lines 1335-1520).

The JavaScript code is shallowly embedded: the in-memory document is a
JSON-like tree, JavaScript null and undefined are both modelled as
`Json.null` (the program distinguishes them only through truthiness and
through the check `resolved.example !== undefined`, and a parsed JSON/YAML
document never stores undefined as a field value, so key presence models
that check faithfully), and JavaScript numbers are modelled as integers
plus a NaN token (the code never performs arithmetic on document numbers;
it only copies them and tests truthiness, for which this model is exact).
The unbounded recursion of `resolveRef` and `resolveSchema` is embedded
with an explicit fuel parameter; `none` means the fuel ran out, so every
`some` result is the value computed by the JavaScript code, and fuel
monotonicity is proved below.
-/

namespace Kohlrabi

/-- JSON-like values held by the in-memory OpenAPI document. Objects are
insertion-ordered key/value lists, matching JavaScript object key order. -/
inductive Json where
  | null
  | bool (b : Bool)
  | num (n : Int)
  | nan
  | str (s : String)
  | arr (elems : List Json)
  | obj (fields : List (String × Json))

mutual

/-- Boolean structural equality on `Json`, used to build decidable equality. -/
def jsonBEq : Json → Json → Bool
  | .null, .null => true
  | .bool a, .bool b => a == b
  | .num a, .num b => a == b
  | .nan, .nan => true
  | .str a, .str b => a == b
  | .arr a, .arr b => jsonListBEq a b
  | .obj a, .obj b => jsonFieldsBEq a b
  | _, _ => false

def jsonListBEq : List Json → List Json → Bool
  | [], [] => true
  | a :: as, b :: bs => jsonBEq a b && jsonListBEq as bs
  | _, _ => false

def jsonFieldsBEq : List (String × Json) → List (String × Json) → Bool
  | [], [] => true
  | (k, v) :: as, (l, w) :: bs => k == l && jsonBEq v w && jsonFieldsBEq as bs
  | _, _ => false

end

mutual

/-- Size of a `Json` tree, used for induction. -/
def jsize : Json → Nat
  | .obj f => jsizeFields f + 1
  | .arr xs => jsizeList xs + 1
  | _ => 1

def jsizeFields : List (String × Json) → Nat
  | [] => 0
  | (_, v) :: rest => jsize v + jsizeFields rest + 1

def jsizeList : List Json → Nat
  | [] => 0
  | x :: rest => jsize x + jsizeList rest + 1

end

theorem jsize_pos : ∀ a, 0 < jsize a := by
  intro a; cases a <;> simp [jsize]

theorem jsonBEq_iff_aux : ∀ n (a b : Json), jsize a ≤ n → (jsonBEq a b = true ↔ a = b) := by
  intro n
  induction n with
  | zero =>
    intro a b h
    exact absurd (Nat.lt_of_lt_of_le (jsize_pos a) h) (by simp)
  | succ n ih =>
    have ihList : ∀ xs ys, jsizeList xs ≤ n → (jsonListBEq xs ys = true ↔ xs = ys) := by
      intro xs
      induction xs with
      | nil => intro ys _; cases ys <;> simp [jsonListBEq]
      | cons x rest ihr =>
        intro ys h
        cases ys with
        | nil => simp [jsonListBEq]
        | cons y rs =>
          have hx : jsize x ≤ n := by simp [jsizeList] at h; omega
          have hr : jsizeList rest ≤ n := by simp [jsizeList] at h; omega
          simp [jsonListBEq, ih x y hx, ihr rs hr]
    have ihFields : ∀ xs ys, jsizeFields xs ≤ n →
        (jsonFieldsBEq xs ys = true ↔ xs = ys) := by
      intro xs
      induction xs with
      | nil => intro ys _; cases ys <;> simp [jsonFieldsBEq]
      | cons x rest ihr =>
        intro ys h
        obtain ⟨k, v⟩ := x
        cases ys with
        | nil => simp [jsonFieldsBEq]
        | cons y rs =>
          obtain ⟨l, w⟩ := y
          have hx : jsize v ≤ n := by simp [jsizeFields] at h; omega
          have hr : jsizeFields rest ≤ n := by simp [jsizeFields] at h; omega
          simp [jsonFieldsBEq, ih v w hx, ihr rs hr, and_assoc]
    intro a b h
    cases a <;> cases b <;>
      simp_all [jsonBEq, jsize, ihList, ihFields]

theorem jsonBEq_iff (a b : Json) : jsonBEq a b = true ↔ a = b :=
  jsonBEq_iff_aux (jsize a) a b le_rfl

instance : DecidableEq Json := fun a b => decidable_of_iff _ (jsonBEq_iff a b)

/-- JavaScript truthiness of a value, as used by the conditionals of the
source (empty string, 0, NaN, null and undefined are falsy; every object
and array, including empty ones, is truthy). -/
def truthy : Json → Bool
  | .null => false
  | .bool b => b
  | .num n => n != 0
  | .nan => false
  | .str s => s ≠ ""
  | .arr _ => true
  | .obj _ => true

/-- First binding of a key in an object field list (JavaScript objects hold
each key at most once; on lists with repeated keys the first occurrence wins,
consistently with how `setField` maintains them). -/
def lookupField : List (String × Json) → String → Option Json
  | [], _ => none
  | (k, v) :: rest, key => if k = key then some v else lookupField rest key

def arrIndexDigits : List Char → Nat → Option Nat
  | [], acc => some acc
  | c :: rest, acc =>
    if c.isDigit then arrIndexDigits rest (acc * 10 + (c.toNat - 48)) else none

/-- Canonical array-index reading of a string key, as JavaScript uses for
arrays: a decimal numeral without leading zeros. -/
def arrIndex : List Char → Option Nat
  | [] => none
  | c :: rest =>
    if c = '0' then (if rest = [] then some 0 else none)
    else arrIndexDigits (c :: rest) 0

/-- Property access `j[k]`: `none` models JavaScript undefined or a
missing key. -/
def jsGetOpt : Json → String → Option Json
  | .obj f, k => lookupField f k
  | .arr xs, k =>
    match arrIndex k.data with
    | some i => xs.get? i
    | none => none
  | _, _ => none

/-- Optional-chaining property access `j?.[k]` with undefined collapsed to
`Json.null`. -/
def jsGet (j : Json) (k : String) : Json := (jsGetOpt j k).getD .null

/-- Setting a key on an object field list: overwrite in place if the key is
present (JavaScript preserves first-insertion key order), else append. -/
def setField : List (String × Json) → String → Json → List (String × Json)
  | [], key, v => [(key, v)]
  | (k, w) :: rest, key, v =>
    if k = key then (k, v) :: rest else (k, w) :: setField rest key v

/-- Setting a key on a value that is an object; non-objects are returned
unchanged (the code only assigns into freshly spread objects). -/
def jsSet : Json → String → Json → Json
  | .obj f, k, v => .obj (setField f k v)
  | j, _, _ => j

/-- Enumeration of own enumerable entries, as `Object.entries`. Non-objects
enumerate to nothing; the document property bags this is applied to are
JSON mappings. -/
def jsEntries : Json → List (String × Json)
  | .obj f => f
  | _ => []

/-- Iteration of a `for...of` loop over a document value. The values the
code iterates (`allOf`, `tags`, the top-level tag list) are JSON arrays. -/
def iterList : Json → List Json
  | .arr xs => xs
  | _ => []

/-- Shallow merge of the entries of a source value into an accumulator
field list, as `Object.assign(target, source)`. -/
def jsAssignFields (acc : List (String × Json)) (src : Json) : List (String × Json) :=
  (jsEntries src).foldl (fun a kv => setField a kv.1 kv.2) acc

/-- Split of a character list on a separator, as `String.prototype.split`
with a single-character separator. -/
def splitSlash : List Char → List Char → List String
  | [], acc => [String.mk acc.reverse]
  | c :: rest, acc =>
    if c = '/' then String.mk acc.reverse :: splitSlash rest []
    else splitSlash rest (c :: acc)

/-- Replacement of every non-overlapping two-character pattern, scanning
left to right, as a global regex replace of a two-character literal. -/
def replacePair (a b rep : Char) : List Char → List Char
  | x :: y :: rest =>
    if x = a ∧ y = b then rep :: replacePair a b rep rest
    else x :: replacePair a b rep (y :: rest)
  | rest => rest

/-- JSON-pointer unescaping of one reference segment, as the source line
`parts[i].replace(/~1/g, '/').replace(/~0/g, '~')`. -/
def unescapeSeg (s : String) : String :=
  String.mk (replacePair '~' '0' '~' (replacePair '~' '1' '/' s.data))

/-- Reference segments of a reference string: split on `/` and drop the
first segment (the `#` root marker), as the loop `for (let i = 1; ...)`. -/
def refSegs (s : String) : List String := (splitSlash s.data []).drop 1

/-- Walk of the document by successive indexing with the unescaped
segments, as `result = result?.[key]`. -/
def refWalk (d : Json) (segs : List String) : Json :=
  segs.foldl (fun acc seg => jsGet acc (unescapeSeg seg)) d

/-- Synthetic schema substituted when a reference cycle is detected. -/
def circularMarker : Json :=
  .obj [("type", .str "object"), ("description", .str "[Circular Reference]")]

/-- Embedding of `OpenAPIParser.resolveRef(ref, visited)` with fuel `n`
(`none` means the fuel ran out; the JavaScript recursion is bounded by the
finitely many distinct reference strings of the document, so some fuel
always suffices). A non-string or empty `ref` yields null; a reference
already in `visited` yields the circular marker; otherwise the document is
walked segment by segment and a `$ref` found at the target is followed
with the same grown visited set. -/
def resolveRefF (d : Json) : Nat → Json → List String → Option Json
  | 0, _, _ => none
  | n + 1, ref, visited =>
    match ref with
    | .str s =>
      if s = "" then some .null
      else if s ∈ visited then some circularMarker
      else
        let result := refWalk d (refSegs s)
        if truthy (jsGet result "$ref") then
          resolveRefF d n (jsGet result "$ref") (s :: visited)
        else some result
    | _ => some .null

/-- Resolution of every property of an object schema, as the loop filling
`resolvedProps` in `resolveSchema`; `resolve` is the recursive call at the
remaining fuel. -/
def propsMapF (resolve : Json → Option Json) :
    List (String × Json) → List (String × Json) → Option (List (String × Json))
  | [], acc => some acc
  | (k, v) :: rest, acc =>
    match resolve v with
    | none => none
    | some r => propsMapF resolve rest (setField acc k r)

/-- Accumulation of the `allOf` merge, as the loop over `schema.allOf` in
`resolveSchema`: each member is resolved and, when it carries truthy
`properties`, those are shallow-assigned into the accumulator. -/
def allOfMergeF (resolve : Json → Option Json) :
    List Json → List (String × Json) → Option (List (String × Json))
  | [], acc => some acc
  | item :: rest, acc =>
    match resolve item with
    | none => none
    | some r =>
      allOfMergeF resolve rest
        (if truthy (jsGet r "properties") then jsAssignFields acc (jsGet r "properties")
         else acc)

/-- Embedding of `OpenAPIParser.resolveSchema(schema, visited)` with fuel
`n`. The branches mirror the source in order: falsy schema, `$ref`
(resolved with a copy of `visited`, the result resolved with the original
`visited`), array with items, object with properties, `allOf` merge,
fall-through. Note the source never adds to `visited` itself; only
`resolveRef` grows its own copy along a reference chain. -/
def resolveSchemaF (d : Json) : Nat → Json → List String → Option Json
  | 0, _, _ => none
  | n + 1, schema, vis =>
    if truthy schema = false then some .null
    else if truthy (jsGet schema "$ref") then
      match resolveRefF d (n + 1) (jsGet schema "$ref") vis with
      | none => none
      | some resolved => resolveSchemaF d n resolved vis
    else if jsGet schema "type" = .str "array" ∧ truthy (jsGet schema "items") then
      match resolveSchemaF d n (jsGet schema "items") vis with
      | none => none
      | some r => some (jsSet schema "items" r)
    else if jsGet schema "type" = .str "object" ∧ truthy (jsGet schema "properties") then
      match propsMapF (fun v => resolveSchemaF d n v vis)
          (jsEntries (jsGet schema "properties")) [] with
      | none => none
      | some ps => some (jsSet schema "properties" (.obj ps))
    else if truthy (jsGet schema "allOf") then
      match allOfMergeF (fun item => resolveSchemaF d n item vis)
          (iterList (jsGet schema "allOf")) [] with
      | none => none
      | some ps => some (.obj [("type", .str "object"), ("properties", .obj ps)])
    else some schema

/-- Synthesis of the examples of an object's properties, as the loop in the
object case of `generateExample`: a property is included only when its
example is not null. -/
def examplePropsF (gen : Json → Option Json) :
    List (String × Json) → List (String × Json) → Option (List (String × Json))
  | [], acc => some acc
  | (k, v) :: rest, acc =>
    match gen v with
    | none => none
    | some ex =>
      examplePropsF gen rest (if ex = Json.null then acc else setField acc k ex)

/-- Embedding of `OpenAPIParser.generateExample(schema, depth)`. `rf` is
the fuel given to the schema resolution it performs first; `gf` is fuel for
its own recursion (the depth cutoff bounds it, so any `gf` exceeding the
remaining depth budget suffices). A falsy schema or `depth > 5` yields
null; an `example` key present on the resolved schema is returned verbatim;
otherwise the declared type drives the synthesized value. -/
def generateExampleF (d : Json) (rf : Nat) : Nat → Json → Nat → Option Json
  | 0, _, _ => none
  | gf + 1, schema, depth =>
    if truthy schema = false ∨ depth > 5 then some .null
    else
      match resolveSchemaF d rf schema [] with
      | none => none
      | some resolved =>
        if truthy resolved = false then some .null
        else if (jsGetOpt resolved "example").isSome then some (jsGet resolved "example")
        else
          match jsGet resolved "type" with
          | .str "string" =>
            if truthy (jsGet resolved "enum") then some (jsGet (jsGet resolved "enum") "0")
            else if jsGet resolved "format" = .str "date" then some (.str "2024-05-01")
            else if jsGet resolved "format" = .str "date-time" then
              some (.str "2024-05-01T12:00:00Z")
            else if jsGet resolved "format" = .str "uuid" then
              some (.str "550e8400-e29b-41d4-a716-446655440000")
            else some (.str "string")
          | .str "number" =>
            some (if truthy (jsGet resolved "example") then jsGet resolved "example" else .num 0)
          | .str "integer" =>
            some (if truthy (jsGet resolved "example") then jsGet resolved "example" else .num 0)
          | .str "boolean" => some (.bool true)
          | .str "array" =>
            match generateExampleF d rf gf (jsGet resolved "items") (depth + 1) with
            | none => none
            | some itemEx =>
              some (if itemEx = Json.null then .arr [] else .arr [itemEx])
          | .str "object" =>
            if truthy (jsGet resolved "properties") = false then some (.obj [])
            else
              match examplePropsF (fun v => generateExampleF d rf gf v (depth + 1))
                  (jsEntries (jsGet resolved "properties")) [] with
              | none => none
              | some fields => some (.obj fields)
          | _ => some .null

/-- Tag group of the endpoint indexer: name, description and ordered
endpoint list, as the values of the `tagMap`. -/
structure TagGroup where
  name : Json
  description : Json
  endpoints : List Json

theorem TagGroup.ext_iff_mk :
    ∀ a b : TagGroup, a = b ↔ a.name = b.name ∧ a.description = b.description ∧
      a.endpoints = b.endpoints := by
  intro a b
  cases a; cases b
  simp

instance : DecidableEq TagGroup := fun a b =>
  decidable_of_iff _ (TagGroup.ext_iff_mk a b).symm

/-- Presence of a key in the ordered tag map, as `tagMap.has(tag)`. -/
def hasEntry : List (Json × TagGroup) → Json → Bool
  | [], _ => false
  | (k, _) :: rest, key => if k = key then true else hasEntry rest key

/-- Appending an endpoint to the group of a tag, as
`tagMap.get(tag).endpoints.push(endpoint)`. -/
def pushEndpoint : List (Json × TagGroup) → Json → Json → List (Json × TagGroup)
  | [], _, _ => []
  | (k, g) :: rest, key, e =>
    if k = key then (k, { g with endpoints := g.endpoints ++ [e] }) :: rest
    else (k, g) :: pushEndpoint rest key e

/-- Insertion or overwrite in the ordered tag map, as `tagMap.set(tag, group)`
(JavaScript Map preserves the insertion position of an existing key). -/
def setEntry : List (Json × TagGroup) → Json → TagGroup → List (Json × TagGroup)
  | [], key, g => [(key, g)]
  | (k, h) :: rest, key, g =>
    if k = key then (k, g) :: rest else (k, h) :: setEntry rest key g

/-- Endpoint object `{ path, method, ...endpoint }`: the synthetic path and
method first, then the operation's own fields spread over them. -/
def mkEndpoint (path method : String) (op : Json) : Json :=
  .obj (jsAssignFields [("path", .str path), ("method", .str method)] op)

/-- List of recognized HTTP verbs of the endpoint walk. -/
def httpVerbs : List String := ["get", "post", "put", "patch", "delete"]

/-- Embedding of `OpenAPIParser.getEndpointsByTags()`: seed the ordered tag
map from the top-level `tags` metadata, then walk every path and method,
building an endpoint for each recognized verb and appending it to the group
of each of its tags (or of the implicit tag `Other` when `tags` is falsy),
creating missing groups with an empty description. -/
def getEndpointsByTags (d : Json) : List TagGroup :=
  let seeded :=
    (iterList (if truthy (jsGet d "tags") then jsGet d "tags" else .arr [])).foldl
      (fun m tag =>
        setEntry m (jsGet tag "name")
          ⟨jsGet tag "name", jsGet tag "description", []⟩)
      []
  let filled :=
    (jsEntries (if truthy (jsGet d "paths") then jsGet d "paths" else .obj [])).foldl
      (fun m pkv =>
        (jsEntries pkv.2).foldl
          (fun m mkv =>
            if mkv.1 ∈ httpVerbs then
              let e := mkEndpoint pkv.1 mkv.1 mkv.2
              let tags :=
                if truthy (jsGet mkv.2 "tags") then jsGet mkv.2 "tags"
                else .arr [.str "Other"]
              (iterList tags).foldl
                (fun m tag =>
                  let m := if hasEntry m tag then m else setEntry m tag ⟨tag, .str "", []⟩
                  pushEndpoint m tag e)
                m
            else m)
          m)
      seeded
  filled.map Prod.snd

mutual

/-- Number of circular-marker nodes occurring in a tree. -/
def countMarkers : Json → Nat
  | .obj f => (if jsonBEq (Json.obj f) circularMarker then 1 else 0) + countMarkersFields f
  | .arr xs => countMarkersList xs
  | _ => 0

def countMarkersFields : List (String × Json) → Nat
  | [] => 0
  | (_, v) :: rest => countMarkers v + countMarkersFields rest

def countMarkersList : List Json → Nat
  | [] => 0
  | x :: rest => countMarkers x + countMarkersList rest

end

mutual

/-- Absence of any `allOf` key in a tree. -/
def allOfFree : Json → Bool
  | .obj f => allOfFreeFields f
  | .arr xs => allOfFreeList xs
  | _ => true

def allOfFreeFields : List (String × Json) → Bool
  | [] => true
  | (k, v) :: rest => k ≠ "allOf" && allOfFree v && allOfFreeFields rest

def allOfFreeList : List Json → Bool
  | [] => true
  | x :: rest => allOfFree x && allOfFreeList rest

end

mutual

/-- Absence of any reference key in a tree (the formalization of a
non-recursive, fully inline schema). -/
def refFree : Json → Bool
  | .obj f => refFreeFields f
  | .arr xs => refFreeList xs
  | _ => true

def refFreeFields : List (String × Json) → Bool
  | [] => true
  | (k, v) :: rest => k ≠ "$ref" && refFree v && refFreeFields rest

def refFreeList : List Json → Bool
  | [] => true
  | x :: rest => refFree x && refFreeList rest

end

mutual

/-- Absence of the circular-marker description string anywhere in a tree.
Every circular-marker node carries this string, so a tree without the
string holds no marker. -/
def crFree : Json → Bool
  | .str s => s ≠ "[Circular Reference]"
  | .obj f => crFreeFields f
  | .arr xs => crFreeList xs
  | _ => true

def crFreeFields : List (String × Json) → Bool
  | [] => true
  | (_, v) :: rest => crFree v && crFreeFields rest

def crFreeList : List Json → Bool
  | [] => true
  | x :: rest => crFree x && crFreeList rest

end

/-- Schema node holding a reference to the component schema `A` of
`cycDoc`. -/
def cycRefA : Json := .obj [("$ref", .str "#/components/schemas/A")]

/-- Component schema `A` of `cycDoc`: an object whose property `self`
refers back to `A` itself. -/
def cycNodeA : Json :=
  .obj [("type", .str "object"), ("properties", .obj [("self", cycRefA)])]

/-- Document whose only component schema is the self-referential `A`. -/
def cycDoc : Json :=
  .obj [("components", .obj [("schemas", .obj [("A", cycNodeA)])])]

/-- Document holding the pure reference chain `A -> $ref B -> $ref A`. -/
def chainDoc : Json :=
  .obj [("components", .obj [("schemas", .obj
    [("A", .obj [("$ref", .str "#/components/schemas/B")]),
     ("B", .obj [("$ref", .str "#/components/schemas/A")])])])]

/-- An `allOf` member declaring property `q`, used to exhibit the branch
precedence of `resolveSchema`. -/
def shadowMember : Json :=
  .obj [("type", .str "object"), ("properties", .obj [("q", .obj [("type", .str "string")])])]

/-- Schema carrying an `allOf` list that is shadowed by the object branch:
it also declares `type: object` with truthy `properties`. -/
def allOfShadowed : Json :=
  .obj [("type", .str "object"),
        ("properties", .obj [("p", .obj [("type", .str "string")])]),
        ("allOf", .arr [shadowMember])]

/-- First member of the colliding `allOf` example: property `x` as string,
with a `required` list. -/
def allOfMemberX : Json :=
  .obj [("type", .str "object"),
        ("properties", .obj [("x", .obj [("type", .str "string")])]),
        ("required", .arr [.str "x"])]

/-- Second member of the colliding `allOf` example: property `x` as
integer and `y` as boolean, with a `required` list. -/
def allOfMemberXY : Json :=
  .obj [("type", .str "object"),
        ("properties", .obj [("x", .obj [("type", .str "integer")]),
                             ("y", .obj [("type", .str "boolean")])]),
        ("required", .arr [.str "y"])]

/-- Document holding a single plain string schema `R`. -/
def plainDoc : Json := .obj [("R", .obj [("type", .str "string")])]

/-- Schema node referring to `R` of `plainDoc`. -/
def plainRefR : Json := .obj [("$ref", .str "#/R")]

/-- Schema whose single `allOf` member carries `properties` but no
`type: object`, so the member resolves to itself unchanged. -/
def allOfUntyped : Json := .obj [("allOf", .arr [.obj [("properties", .obj [("x", plainRefR)])]])]

/-- First resolution of `allOfUntyped` over `plainDoc`: the merge lifts the
still unresolved reference under `properties`. -/
def allOfUntypedOnce : Json :=
  .obj [("type", .str "object"), ("properties", .obj [("x", plainRefR)])]

/-- Second resolution of `allOfUntyped` over `plainDoc`: the lifted
reference is now resolved by the object branch. -/
def allOfUntypedTwice : Json :=
  .obj [("type", .str "object"), ("properties", .obj [("x", .obj [("type", .str "string")])])]

/-- Schema nesting objects `k` levels deep, with a string schema at the
bottom. -/
def nestObj : Nat → Json
  | 0 => .obj [("type", .str "string")]
  | k + 1 => .obj [("type", .str "object"), ("properties", .obj [("c", nestObj k)])]

/-- Document with one seeded tag group `A` and a single operation whose
declared tag list is empty. -/
def seededEmptyTagsDoc : Json :=
  .obj [("tags", .arr [.obj [("name", .str "A"), ("description", .str "group A")]]),
        ("paths", .obj [("/p", .obj [("get", .obj [("tags", .arr [])])])])]

/-- Document with no tag metadata and a single operation whose declared
tag list is empty. -/
def bareEmptyTagsDoc : Json :=
  .obj [("paths", .obj [("/p", .obj [("get", .obj [("tags", .arr [])])])])]

/-- Sibling schema: an object whose two properties `a` and `b` each hold a
reference to the same target. -/
def siblingSchema (uref : String) : Json :=
  .obj [("type", .str "object"),
        ("properties", .obj [("a", .obj [("$ref", .str uref)]),
                             ("b", .obj [("$ref", .str uref)])])]

/-- Non-recursive component schema `User` of `userDoc`. -/
def userNode : Json :=
  .obj [("type", .str "object"),
        ("properties", .obj [("name", .obj [("type", .str "string")])])]

/-- Document for the sibling witness: a single non-recursive component
schema `User`. -/
def userDoc : Json :=
  .obj [("components", .obj [("schemas", .obj [("User", userNode)])])]

/-! Fuel monotonicity: a `some` result is stable under giving more fuel, so
`some` results are the values computed by the JavaScript code. -/

theorem resolveRefF_mono (d : Json) :
    ∀ n m ref vis r, n ≤ m → resolveRefF d n ref vis = some r →
      resolveRefF d m ref vis = some r := by
  intro n
  induction n with
  | zero => intro m ref vis r _ h; simp [resolveRefF] at h
  | succ k ih =>
    intro m ref vis r hle h
    obtain ⟨j, rfl⟩ : ∃ j, m = j + 1 := ⟨m - 1, by omega⟩
    cases ref with
    | str s =>
      simp only [resolveRefF] at h ⊢
      by_cases h1 : s = ""
      · simpa [h1] using h
      · by_cases h2 : s ∈ vis
        · simpa [h1, h2] using h
        · simp only [h1, h2, if_false, if_neg, ite_false] at h ⊢
          by_cases h3 : truthy (jsGet (refWalk d (refSegs s)) "$ref") = true
          · simp only [h3, if_true, ite_true] at h ⊢
            exact ih j _ _ r (by omega) h
          · simpa [h3] using h
    | null => simpa [resolveRefF] using h
    | bool b => simpa [resolveRefF] using h
    | num v => simpa [resolveRefF] using h
    | nan => simpa [resolveRefF] using h
    | arr xs => simpa [resolveRefF] using h
    | obj f => simpa [resolveRefF] using h

theorem propsMapF_mono_of (g g1 : Json → Option Json)
    (hg : ∀ v w, g v = some w → g1 v = some w) :
    ∀ l acc ps, propsMapF g l acc = some ps → propsMapF g1 l acc = some ps := by
  intro l
  induction l with
  | nil => intro acc ps h; simpa [propsMapF] using h
  | cons kv rest ih =>
    intro acc ps h
    obtain ⟨k, v⟩ := kv
    simp only [propsMapF] at h ⊢
    cases hv : g v with
    | none => rw [hv] at h; simp at h
    | some w => rw [hv] at h; rw [hg v w hv]; exact ih _ _ h

theorem allOfMergeF_mono_of (g g1 : Json → Option Json)
    (hg : ∀ v w, g v = some w → g1 v = some w) :
    ∀ l acc ps, allOfMergeF g l acc = some ps → allOfMergeF g1 l acc = some ps := by
  intro l
  induction l with
  | nil => intro acc ps h; simpa [allOfMergeF] using h
  | cons item rest ih =>
    intro acc ps h
    simp only [allOfMergeF] at h ⊢
    cases hv : g item with
    | none => rw [hv] at h; simp at h
    | some w => rw [hv] at h; rw [hg item w hv]; exact ih _ _ h

theorem resolveSchemaF_mono (d : Json) :
    ∀ n m s vis r, n ≤ m → resolveSchemaF d n s vis = some r →
      resolveSchemaF d m s vis = some r := by
  intro n
  induction n with
  | zero => intro m s vis r _ h; simp [resolveSchemaF] at h
  | succ k ih =>
    intro m s vis r hle h
    obtain ⟨j, rfl⟩ : ∃ j, m = j + 1 := ⟨m - 1, by omega⟩
    have hkj : k ≤ j := by omega
    simp only [resolveSchemaF] at h ⊢
    by_cases h1 : truthy s = false
    · simpa [h1] using h
    · simp only [h1, if_false, ite_false] at h ⊢
      by_cases h2 : truthy (jsGet s "$ref") = true
      · simp only [h2, if_true, ite_true] at h ⊢
        cases hr : resolveRefF d (k + 1) (jsGet s "$ref") vis with
        | none => rw [hr] at h; simp at h
        | some t =>
          rw [hr] at h
          rw [resolveRefF_mono d (k + 1) (j + 1) _ _ t (by omega) hr]
          exact ih j t vis r hkj h
      · simp only [h2, if_false, ite_false] at h ⊢
        by_cases h3 : jsGet s "type" = Json.str "array" ∧ truthy (jsGet s "items") = true
        · simp only [h3, if_true, ite_true] at h ⊢
          cases hr : resolveSchemaF d k (jsGet s "items") vis with
          | none => rw [hr] at h; simp at h
          | some t => rw [hr] at h; rw [ih j _ vis t hkj hr]; exact h
        · simp only [h3, if_false, ite_false] at h ⊢
          by_cases h4 : jsGet s "type" = Json.str "object" ∧ truthy (jsGet s "properties") = true
          · simp only [h4, if_true, ite_true] at h ⊢
            cases hr : propsMapF (fun v => resolveSchemaF d k v vis)
                (jsEntries (jsGet s "properties")) [] with
            | none => rw [hr] at h; simp at h
            | some ps =>
              rw [hr] at h
              rw [propsMapF_mono_of _ _ (fun v w hw => ih j v vis w hkj hw) _ _ _ hr]
              exact h
          · simp only [h4, if_false, ite_false] at h ⊢
            by_cases h5 : truthy (jsGet s "allOf") = true
            · simp only [h5, if_true, ite_true] at h ⊢
              cases hr : allOfMergeF (fun item => resolveSchemaF d k item vis)
                  (iterList (jsGet s "allOf")) [] with
              | none => rw [hr] at h; simp at h
              | some ps =>
                rw [hr] at h
                rw [allOfMergeF_mono_of _ _ (fun v w hw => ih j v vis w hkj hw) _ _ _ hr]
                exact h
            · simpa [h5] using h

/-! Divergence of schema resolution on a document whose schema refers back
to itself through a property: `resolveSchema` threads its `visited` set
unchanged (only `resolveRef` grows a discarded copy), so the circular
marker never fires along the property route and the recursion never
bottoms out, whatever the fuel. -/

theorem resolveSchemaF_cycDoc_none :
    ∀ n, resolveSchemaF cycDoc n cycRefA [] = none ∧
      resolveSchemaF cycDoc n cycNodeA [] = none := by
  intro n
  induction n with
  | zero => exact ⟨rfl, rfl⟩
  | succ k ih =>
    constructor
    · have step : resolveSchemaF cycDoc (k + 1) cycRefA [] =
          resolveSchemaF cycDoc k cycNodeA [] := rfl
      rw [step]
      exact ih.2
    · have step : resolveSchemaF cycDoc (k + 1) cycNodeA [] =
          (match propsMapF (fun v => resolveSchemaF cycDoc k v [])
              [("self", cycRefA)] [] with
            | none => none
            | some ps => some (jsSet cycNodeA "properties" (.obj ps))) := rfl
      rw [step]
      rw [show propsMapF (fun v => resolveSchemaF cycDoc k v []) [("self", cycRefA)] [] =
          none from by simp [propsMapF, ih.1]]

/-- C1: the claim that `resolveSchema` terminates on every document and
schema node, in particular on a schema whose own property refers back to
itself through `properties`, is refuted by the code: on `cycDoc`, resolving
the reference to `A` runs out of any amount of fuel, i.e. the JavaScript
recursion never returns (the `visited` set `resolveSchema` threads is never
extended, so the circular marker only fires on direct reference chains,
not on cycles through properties or items). -/
theorem resolveSchema_diverges_on_property_cycle :
    ∀ n, resolveSchemaF cycDoc n cycRefA [] = none :=
  fun n => (resolveSchemaF_cycDoc_none n).1

/-- C4: on a document holding the pure reference chain `A -> $ref B ->
$ref A`, resolving a node whose reference is `A` with a fresh empty
visited set terminates (fuel 5 suffices) and yields exactly the circular
marker, a tree containing exactly one circular-marker node. -/
theorem resolveSchema_ref_chain_single_marker :
    resolveSchemaF chainDoc 5 (Json.obj [("$ref", Json.str "#/components/schemas/A")]) [] =
      some circularMarker ∧ countMarkers circularMarker = 1 :=
  ⟨by decide, by decide⟩

/-- C10: an operation declaring an empty `tags` array is appended to no
tag group at all: with a seeded group `A` the group list keeps its empty
endpoint list and no `Other` group appears, and without seeded tags the
returned group list is empty, the operation silently dropped. -/
theorem emptyTags_operation_dropped :
    getEndpointsByTags seededEmptyTagsDoc =
      [⟨Json.str "A", Json.str "group A", []⟩] ∧
    getEndpointsByTags bareEmptyTagsDoc = [] :=
  ⟨by decide, by decide⟩

/-- C7: example generation is depth bounded: any call with `depth > 5`
returns null unconditionally whatever the schema, document and fuel, and
on a schema nesting objects ten levels deep it returns a value (never
hangs or throws), non-null when entered at depth at most 5 and null when
entered beyond. -/
theorem generateExample_depth_bound :
    (∀ d rf gf schema depth, depth > 5 →
        generateExampleF d rf (gf + 1) schema depth = some Json.null) ∧
    (∀ k, k ≤ 10 →
        ((generateExampleF (Json.obj []) 20 15 (nestObj (10 - k)) k).isSome = true ∧
         (k ≤ 5 → generateExampleF (Json.obj []) 20 15 (nestObj (10 - k)) k ≠ some Json.null) ∧
         (5 < k → generateExampleF (Json.obj []) 20 15 (nestObj (10 - k)) k = some Json.null))) := by
  constructor
  · intro d rf gf schema depth h
    simp [generateExampleF, h]
  · decide

/-- Witness for C7: applied at depth 6 on a concrete schema, and at entry
depth 3 of the ten-level nest. -/
theorem generateExample_depth_bound_witness :
    generateExampleF (Json.obj []) 1 1 (Json.obj [("type", Json.str "string")]) 6 =
      some Json.null ∧
    (generateExampleF (Json.obj []) 20 15 (nestObj 7) 3).isSome = true :=
  ⟨generateExample_depth_bound.1 (Json.obj []) 1 0 (Json.obj [("type", Json.str "string")]) 6
      (by decide),
   (generateExample_depth_bound.2 3 (by decide)).1⟩

/-- C2 (amended): when the resolved schema carries an `example` key, its
value is returned verbatim whatever the type, including falsy values such
as 0, null and NaN; the numeric `example || 0` default is unreachable with
a present example, so a number or integer schema yields 0 exactly when
`example` is absent. -/
theorem generateExample_number_example :
    (∀ d rf gf schema depth resolved e,
        truthy schema = true → depth ≤ 5 →
        resolveSchemaF d rf schema [] = some resolved →
        truthy resolved = true →
        jsGetOpt resolved "example" = some e →
        generateExampleF d rf (gf + 1) schema depth = some e) ∧
    (∀ d rf gf schema depth resolved,
        truthy schema = true → depth ≤ 5 →
        resolveSchemaF d rf schema [] = some resolved →
        truthy resolved = true →
        jsGetOpt resolved "example" = none →
        (jsGet resolved "type" = Json.str "number" ∨
          jsGet resolved "type" = Json.str "integer") →
        generateExampleF d rf (gf + 1) schema depth = some (Json.num 0)) := by
  constructor
  · intro d rf gf schema depth resolved e h1 h2 h3 h4 h5
    have hnd : ¬(truthy schema = false ∨ depth > 5) := by
      simp [h1]; omega
    simp only [generateExampleF, if_neg hnd, h3]
    simp [h4, h5, jsGet]
  · intro d rf gf schema depth resolved h1 h2 h3 h4 h5 h6
    have hnd : ¬(truthy schema = false ∨ depth > 5) := by
      simp [h1]; omega
    simp only [generateExampleF, if_neg hnd, h3]
    have hex : jsGet resolved "example" = Json.null := by simp [jsGet, h5]
    rcases h6 with h6 | h6 <;>
      simp [h4, h5, h6, hex, show truthy Json.null = false from rfl]

/-- Witness for C2: a declared integer example 7 is returned verbatim, and
an integer schema without example yields 0. -/
theorem generateExample_number_example_witness :
    generateExampleF (Json.obj []) 1 1
      (Json.obj [("type", Json.str "integer"), ("example", Json.num 7)]) 0 =
        some (Json.num 7) ∧
    generateExampleF (Json.obj []) 1 1 (Json.obj [("type", Json.str "integer")]) 0 =
      some (Json.num 0) :=
  ⟨generateExample_number_example.1 (Json.obj []) 1 0
      (Json.obj [("type", Json.str "integer"), ("example", Json.num 7)]) 0
      (Json.obj [("type", Json.str "integer"), ("example", Json.num 7)]) (Json.num 7)
      (by decide) (by decide) (by decide) (by decide) (by decide),
   generateExample_number_example.2 (Json.obj []) 1 0
      (Json.obj [("type", Json.str "integer")]) 0 (Json.obj [("type", Json.str "integer")])
      (by decide) (by decide) (by decide) (by decide) (by decide) (Or.inr (by decide))⟩

/-- Counterexample for C2: a number schema declaring `example: NaN` does
not yield 0 as the claim states; the NaN is returned verbatim, because the
explicit-example return precedes the numeric falsy-default line, which is
therefore unreachable with a present example. -/
theorem generateExample_nan_example_not_zero :
    generateExampleF (Json.obj []) 1 2
      (Json.obj [("type", Json.str "number"), ("example", Json.nan)]) 0 = some Json.nan ∧
    Json.nan ≠ Json.num 0 :=
  ⟨by decide, by decide⟩

/-- C8: `resolveRef` returns null (never throws) on every bad reference:
an empty string reference, any non-string reference, and any dangling
reference whose document walk falls through to nothing; a null midway
value absorbs all further indexing, so any missing path segment makes the
walk fall through. -/
theorem resolveRef_bad_refs_null :
    (∀ d n vis, resolveRefF d (n + 1) (Json.str "") vis = some Json.null) ∧
    (∀ d n vis ref, (∀ s, ref ≠ Json.str s) →
        resolveRefF d (n + 1) ref vis = some Json.null) ∧
    (∀ segs, refWalk Json.null segs = Json.null) ∧
    (∀ d n vis ref, ref ≠ "" → ref ∉ vis →
        refWalk d (refSegs ref) = Json.null →
        resolveRefF d (n + 1) (Json.str ref) vis = some Json.null) := by
  refine ⟨?_, ?_, ?_, ?_⟩
  · intro d n vis; simp [resolveRefF]
  · intro d n vis ref h
    cases ref with
    | str s => exact absurd rfl (h s)
    | null => simp [resolveRefF]
    | bool b => simp [resolveRefF]
    | num v => simp [resolveRefF]
    | nan => simp [resolveRefF]
    | arr xs => simp [resolveRefF]
    | obj f => simp [resolveRefF]
  · intro segs
    induction segs with
    | nil => rfl
    | cons seg rest ih =>
      show refWalk (jsGet Json.null (unescapeSeg seg)) rest = Json.null
      exact ih
  · intro d n vis ref h1 h2 hwalk
    simp [resolveRefF, h1, h2, hwalk, jsGet, jsGetOpt, truthy]

/-- Witness for C8: the empty reference, a numeric reference and a
dangling reference on a concrete document all resolve to null. -/
theorem resolveRef_bad_refs_null_witness :
    resolveRefF (Json.obj [("a", Json.num 1)]) 1 (Json.str "") [] = some Json.null ∧
    resolveRefF (Json.obj [("a", Json.num 1)]) 1 (Json.num 3) [] = some Json.null ∧
    resolveRefF (Json.obj [("a", Json.num 1)]) 1 (Json.str "#/nope/deep") [] =
      some Json.null :=
  ⟨resolveRef_bad_refs_null.1 (Json.obj [("a", Json.num 1)]) 0 [],
   resolveRef_bad_refs_null.2.1 (Json.obj [("a", Json.num 1)]) 0 [] (Json.num 3)
      (fun s h => Json.noConfusion h),
   resolveRef_bad_refs_null.2.2.2 (Json.obj [("a", Json.num 1)]) 0 [] "#/nope/deep"
      (by decide) (by decide) (by decide)⟩

/-- C6 (amended): for every schema whose `allOf` branch is actually
reached (the schema is truthy and not captured by the earlier reference,
array or object branches), `resolveSchema` returns the merge built from a
fresh object accumulator: the result carries exactly a `type: object` key
and the shallow-merged `properties`, so in particular no `required` key
survives from any member; and on two members colliding on `x`, the later
member's definition wins, as the concrete second conjunct computes. -/
theorem resolveSchema_allOf_merge :
    (∀ d n s ps,
        truthy s = true →
        truthy (jsGet s "$ref") = false →
        ¬(jsGet s "type" = Json.str "array" ∧ truthy (jsGet s "items") = true) →
        ¬(jsGet s "type" = Json.str "object" ∧ truthy (jsGet s "properties") = true) →
        truthy (jsGet s "allOf") = true →
        allOfMergeF (fun item => resolveSchemaF d n item [])
            (iterList (jsGet s "allOf")) [] = some ps →
        resolveSchemaF d (n + 1) s [] =
          some (Json.obj [("type", Json.str "object"), ("properties", Json.obj ps)]) ∧
        lookupField [("type", Json.str "object"), ("properties", Json.obj ps)] "required" =
          none) ∧
    resolveSchemaF (Json.obj []) 3
        (Json.obj [("allOf", Json.arr [allOfMemberX, allOfMemberXY])]) [] =
      some (Json.obj [("type", Json.str "object"), ("properties", Json.obj
        [("x", Json.obj [("type", Json.str "integer")]),
         ("y", Json.obj [("type", Json.str "boolean")])])]) := by
  constructor
  · intro d n s ps h1 h2 h3 h4 h5 h6
    refine ⟨?_, by simp [lookupField]⟩
    simp only [resolveSchemaF, h1, h2, h3, h4, h5, h6]
    simp
  · decide

/-- Witness for C6: a single-member `allOf` schema merges into a bare
object schema holding the member's properties and no `required`. -/
theorem resolveSchema_allOf_merge_witness :
    resolveSchemaF (Json.obj []) 3 (Json.obj [("allOf", Json.arr [allOfMemberX])]) [] =
      some (Json.obj [("type", Json.str "object"),
        ("properties", Json.obj [("x", Json.obj [("type", Json.str "string")])])]) :=
  (resolveSchema_allOf_merge.1 (Json.obj []) 2
      (Json.obj [("allOf", Json.arr [allOfMemberX])])
      [("x", Json.obj [("type", Json.str "string")])]
      (by decide) (by decide) (by decide) (by decide) (by decide) (by decide)).1

/-- Counterexample for C6: a schema that has an `allOf` list but also
`type: object` with truthy `properties` is captured by the earlier object
branch: the result is the schema itself with its properties resolved, not
a merge; it keeps the `allOf` key unmerged and does not contain the
member's property `q`. -/
theorem resolveSchema_allOf_shadowed :
    resolveSchemaF (Json.obj []) 3 allOfShadowed [] = some allOfShadowed ∧
    lookupField (jsEntries allOfShadowed) "allOf" = some (Json.arr [shadowMember]) ∧
    allOfShadowed ≠ Json.obj [("type", Json.str "object"),
      ("properties", Json.obj [("q", Json.obj [("type", Json.str "string")])])] :=
  ⟨by decide, by decide, by decide⟩

/-- C9: an operation on a recognized verb declaring two distinct tags is
fanned out: it appears exactly once in each of the two freshly created
groups, both copies being the identical endpoint object built from the
path, the method and the operation's own fields; and an operation with no
`tags` field is placed in the single implicit group named `Other`. -/
theorem getEndpointsByTags_fanout_and_other :
    (∀ (p m t1 t2 : String) (opf : List (String × Json)),
        m ∈ httpVerbs → t1 ≠ t2 →
        lookupField opf "tags" = some (Json.arr [Json.str t1, Json.str t2]) →
        getEndpointsByTags
            (Json.obj [("paths", Json.obj [(p, Json.obj [(m, Json.obj opf)])])]) =
          [⟨Json.str t1, Json.str "", [mkEndpoint p m (Json.obj opf)]⟩,
           ⟨Json.str t2, Json.str "", [mkEndpoint p m (Json.obj opf)]⟩]) ∧
    (∀ (p m : String) (opf : List (String × Json)),
        m ∈ httpVerbs →
        lookupField opf "tags" = none →
        getEndpointsByTags
            (Json.obj [("paths", Json.obj [(p, Json.obj [(m, Json.obj opf)])])]) =
          [⟨Json.str "Other", Json.str "", [mkEndpoint p m (Json.obj opf)]⟩]) := by
  constructor
  · intro p m t1 t2 opf hm hne htags
    simp only [getEndpointsByTags, jsGet, jsGetOpt, lookupField, jsEntries, iterList,
      truthy, htags, hm, List.foldl, hasEntry, setEntry, pushEndpoint]
    simp [hne, hasEntry, setEntry, pushEndpoint]
  · intro p m opf hm htags
    simp only [getEndpointsByTags, jsGet, jsGetOpt, lookupField, jsEntries, iterList,
      truthy, htags, hm, List.foldl, hasEntry, setEntry, pushEndpoint]
    simp [hasEntry, setEntry, pushEndpoint]

/-- Witness for C9: a concrete two-tag operation fans out into groups `A`
and `B`, and a concrete untagged operation lands in `Other`. -/
theorem getEndpointsByTags_fanout_witness :
    getEndpointsByTags (Json.obj [("paths", Json.obj [("/u", Json.obj [("get", Json.obj
        [("tags", Json.arr [Json.str "A", Json.str "B"])])])])]) =
      [⟨Json.str "A", Json.str "", [mkEndpoint "/u" "get"
          (Json.obj [("tags", Json.arr [Json.str "A", Json.str "B"])])]⟩,
       ⟨Json.str "B", Json.str "", [mkEndpoint "/u" "get"
          (Json.obj [("tags", Json.arr [Json.str "A", Json.str "B"])])]⟩] ∧
    getEndpointsByTags (Json.obj [("paths", Json.obj [("/v", Json.obj [("post", Json.obj
        [("summary", Json.str "s")])])])]) =
      [⟨Json.str "Other", Json.str "", [mkEndpoint "/v" "post"
          (Json.obj [("summary", Json.str "s")])]⟩] :=
  ⟨getEndpointsByTags_fanout_and_other.1 "/u" "get" "A" "B"
      [("tags", Json.arr [Json.str "A", Json.str "B"])] (by decide) (by decide) (by decide),
   getEndpointsByTags_fanout_and_other.2 "/v" "post" [("summary", Json.str "s")]
      (by decide) (by decide)⟩

/-! Structural lemmas about field lists, used by the idempotence and
sibling-resolution proofs. -/

theorem lookupField_mem : ∀ (f : List (String × Json)) k v,
    lookupField f k = some v → (k, v) ∈ f := by
  intro f
  induction f with
  | nil => intro k v h; simp [lookupField] at h
  | cons kv rest ih =>
    intro k v h
    obtain ⟨k1, w⟩ := kv
    by_cases hk : k1 = k
    · subst hk; simp [lookupField] at h; simp [h]
    · simp only [lookupField, if_neg hk] at h
      exact List.mem_cons_of_mem _ (ih k v h)

theorem mem_setField : ∀ (f : List (String × Json)) k v kv,
    kv ∈ setField f k v → kv.2 = v ∨ kv ∈ f := by
  intro f
  induction f with
  | nil => intro k v kv h; simp [setField] at h; simp [h]
  | cons kw rest ih =>
    intro k v kv h
    obtain ⟨k1, w⟩ := kw
    by_cases hk : k1 = k
    · subst hk
      simp only [setField, if_pos rfl] at h
      rcases List.mem_cons.mp h with h | h
      · simp [h]
      · exact Or.inr (List.mem_cons_of_mem _ h)
    · simp only [setField, if_neg hk] at h
      rcases List.mem_cons.mp h with h | h
      · exact Or.inr (by simp [h])
      · rcases ih k v kv h with h1 | h1
        · exact Or.inl h1
        · exact Or.inr (List.mem_cons_of_mem _ h1)

theorem lookupField_setField_self : ∀ (f : List (String × Json)) k v,
    lookupField (setField f k v) k = some v := by
  intro f
  induction f with
  | nil => intro k v; simp [setField, lookupField]
  | cons kw rest ih =>
    intro k v
    obtain ⟨k1, w⟩ := kw
    by_cases hk : k1 = k
    · subst hk; simp [setField, lookupField]
    · simp [setField, lookupField, hk, ih]

theorem lookupField_setField_ne : ∀ (f : List (String × Json)) k k1 v, k1 ≠ k →
    lookupField (setField f k v) k1 = lookupField f k1 := by
  intro f
  induction f with
  | nil =>
    intro k k1 v h
    simp [setField, lookupField, Ne.symm h]
  | cons kw rest ih =>
    intro k k1 v h
    obtain ⟨k2, w⟩ := kw
    by_cases hk : k2 = k
    · subst hk
      simp [setField, lookupField, Ne.symm h]
    · simp only [setField, if_neg hk, lookupField]
      by_cases hk1 : k2 = k1
      · simp [hk1]
      · simp [hk1, ih k k1 v h]

theorem setField_setField : ∀ (f : List (String × Json)) k v w,
    setField (setField f k v) k w = setField f k w := by
  intro f
  induction f with
  | nil => intro k v w; simp [setField]
  | cons kw rest ih =>
    intro k v w
    obtain ⟨k1, u⟩ := kw
    by_cases hk : k1 = k
    · subst hk; simp [setField]
    · simp [setField, hk, ih]

theorem keys_setField_of_mem : ∀ (f : List (String × Json)) (k : String) v,
    k ∈ f.map Prod.fst → (setField f k v).map Prod.fst = f.map Prod.fst := by
  intro f
  induction f with
  | nil => intro k v h; simp at h
  | cons kw rest ih =>
    intro k v h
    obtain ⟨k1, w⟩ := kw
    by_cases hk : k1 = k
    · subst hk; simp [setField]
    · have hmem : k ∈ rest.map Prod.fst := by
        rcases List.mem_map.mp h with ⟨kv, hkv, hfst⟩
        rcases List.mem_cons.mp hkv with h1 | h1
        · subst h1; exact absurd hfst hk
        · exact List.mem_map.mpr ⟨kv, h1, hfst⟩
      simp [setField, hk, ih k v hmem]

theorem setField_of_not_mem : ∀ (f : List (String × Json)) (k : String) v,
    k ∉ f.map Prod.fst → setField f k v = f ++ [(k, v)] := by
  intro f
  induction f with
  | nil => intro k v _; simp [setField]
  | cons kw rest ih =>
    intro k v h
    obtain ⟨k1, w⟩ := kw
    simp only [List.map_cons, List.mem_cons] at h
    push_neg at h
    simp [setField, Ne.symm h.1, ih k v h.2]

theorem nodup_keys_setField : ∀ (f : List (String × Json)) k v,
    (f.map Prod.fst).Nodup → ((setField f k v).map Prod.fst).Nodup := by
  intro f k v h
  by_cases hk : k ∈ f.map Prod.fst
  · rw [keys_setField_of_mem f k v hk]; exact h
  · rw [setField_of_not_mem f k v hk]
    simp only [List.map_append, List.map_cons, List.map_nil]
    exact List.Nodup.append h (by simp) (by simpa [List.disjoint_singleton] using hk)

theorem lookupField_eq_none_of_keys : ∀ (f : List (String × Json)) (k : String),
    (∀ kv ∈ f, kv.1 ≠ k) → lookupField f k = none := by
  intro f
  induction f with
  | nil => intro k _; rfl
  | cons kv rest ih =>
    intro k h
    obtain ⟨k1, v⟩ := kv
    simp only [lookupField, if_neg (h (k1, v) (by simp))]
    exact ih k (fun kv hkv => h kv (List.mem_cons_of_mem _ hkv))

theorem jsGet_jsSet_self (f : List (String × Json)) (k : String) (v : Json) :
    jsGet (jsSet (Json.obj f) k v) k = v := by
  simp [jsSet, jsGet, jsGetOpt, lookupField_setField_self]

theorem jsGet_jsSet_ne (f : List (String × Json)) (k k1 : String) (v : Json) (h : k1 ≠ k) :
    jsGet (jsSet (Json.obj f) k v) k1 = jsGet (Json.obj f) k1 := by
  simp [jsSet, jsGet, jsGetOpt, lookupField_setField_ne f k k1 v h]

theorem eq_obj_of_jsGet_type (s : Json) (t : String) (h : jsGet s "type" = Json.str t) :
    ∃ f, s = Json.obj f := by
  cases s with
  | obj f => exact ⟨f, rfl⟩
  | arr xs =>
    have hx : jsGet (Json.arr xs) "type" = Json.null := by
      have hi : arrIndex "type".data = none := by decide
      simp [jsGet, jsGetOpt, hi]
    rw [hx] at h
    exact Json.noConfusion h
  | null => exact Json.noConfusion h
  | bool b => exact Json.noConfusion h
  | num v => exact Json.noConfusion h
  | nan => exact Json.noConfusion h
  | str s1 => exact Json.noConfusion h

/-! Closure of the key-freedom predicates under the access operations of
the resolver. -/

theorem allOfFreeFields_mem : ∀ f, allOfFreeFields f = true →
    ∀ kv ∈ f, allOfFree kv.2 = true := by
  intro f
  induction f with
  | nil => intro _ kv h; simp at h
  | cons kv0 rest ih =>
    intro h kv hkv
    obtain ⟨k, v⟩ := kv0
    simp only [allOfFreeFields, Bool.and_eq_true] at h
    rcases List.mem_cons.mp hkv with rfl | hkv
    · exact h.1.2
    · exact ih h.2 kv hkv

theorem allOfFreeFields_keys : ∀ f, allOfFreeFields f = true →
    ∀ kv ∈ f, kv.1 ≠ "allOf" := by
  intro f
  induction f with
  | nil => intro _ kv h; simp at h
  | cons kv0 rest ih =>
    intro h kv hkv
    obtain ⟨k, v⟩ := kv0
    simp only [allOfFreeFields, Bool.and_eq_true] at h
    rcases List.mem_cons.mp hkv with rfl | hkv
    · simpa using h.1.1
    · exact ih h.2 kv hkv

theorem allOfFreeList_mem : ∀ xs, allOfFreeList xs = true →
    ∀ x ∈ xs, allOfFree x = true := by
  intro xs
  induction xs with
  | nil => intro _ x h; simp at h
  | cons x0 rest ih =>
    intro h x hx
    simp only [allOfFreeList, Bool.and_eq_true] at h
    rcases List.mem_cons.mp hx with rfl | hx
    · exact h.1
    · exact ih h.2 x hx

theorem allOfFree_jsGet (j : Json) (k : String) (h : allOfFree j = true) :
    allOfFree (jsGet j k) = true := by
  cases j with
  | obj f =>
    simp only [jsGet, jsGetOpt]
    cases hl : lookupField f k with
    | none => rfl
    | some v =>
      simpa using allOfFreeFields_mem f (by simpa [allOfFree] using h) _
        (lookupField_mem f k v hl)
  | arr xs =>
    simp only [jsGet, jsGetOpt]
    cases hi : arrIndex k.data with
    | none => rfl
    | some i =>
      show allOfFree ((xs.get? i).getD Json.null) = true
      cases hg : xs.get? i with
      | none => rfl
      | some v =>
        simpa using allOfFreeList_mem xs (by simpa [allOfFree] using h) _ (List.get?_mem hg)
  | null => rfl
  | bool b => rfl
  | num v => rfl
  | nan => rfl
  | str s => rfl

theorem allOfFree_entries (j : Json) (h : allOfFree j = true) :
    ∀ kv ∈ jsEntries j, allOfFree kv.2 = true := by
  cases j with
  | obj f => exact allOfFreeFields_mem f (by simpa [allOfFree] using h)
  | null => intro kv h1; simp [jsEntries] at h1
  | bool b => intro kv h1; simp [jsEntries] at h1
  | num v => intro kv h1; simp [jsEntries] at h1
  | nan => intro kv h1; simp [jsEntries] at h1
  | str s => intro kv h1; simp [jsEntries] at h1
  | arr xs => intro kv h1; simp [jsEntries] at h1

theorem allOfFree_refWalk (d : Json) (segs : List String) (h : allOfFree d = true) :
    allOfFree (refWalk d segs) = true := by
  induction segs generalizing d with
  | nil => exact h
  | cons seg rest ih =>
    show allOfFree (refWalk (jsGet d (unescapeSeg seg)) rest) = true
    exact ih _ (allOfFree_jsGet d (unescapeSeg seg) h)

theorem allOfFree_no_allOf (s : Json) (h : allOfFree s = true) :
    jsGet s "allOf" = Json.null := by
  cases s with
  | obj f =>
    simp [jsGet, jsGetOpt,
      lookupField_eq_none_of_keys f "allOf"
        (allOfFreeFields_keys f (by simpa [allOfFree] using h))]
  | arr xs =>
    have hi : arrIndex "allOf".data = none := by decide
    simp [jsGet, jsGetOpt, hi]
  | null => rfl
  | bool b => rfl
  | num v => rfl
  | nan => rfl
  | str s1 => rfl

theorem allOfFree_resolveRefF (d : Json) (hd : allOfFree d = true) :
    ∀ n ref vis t, resolveRefF d n ref vis = some t → allOfFree t = true := by
  intro n
  induction n with
  | zero => intro ref vis t h; simp [resolveRefF] at h
  | succ k ih =>
    intro ref vis t h
    cases ref with
    | str s =>
      simp only [resolveRefF] at h
      by_cases h1 : s = ""
      · simp [h1] at h; rw [← h]; rfl
      · by_cases h2 : s ∈ vis
        · simp [h1, h2] at h; rw [← h]; decide
        · simp only [h1, h2, ite_false, if_neg, not_false_iff] at h
          by_cases h3 : truthy (jsGet (refWalk d (refSegs s)) "$ref") = true
          · rw [if_pos h3] at h
            exact ih _ _ _ h
          · rw [if_neg h3] at h
            simp only [Option.some.injEq] at h
            rw [← h]
            exact allOfFree_refWalk d (refSegs s) hd
    | null => simp [resolveRefF] at h; rw [← h]; rfl
    | bool b => simp [resolveRefF] at h; rw [← h]; rfl
    | num v => simp [resolveRefF] at h; rw [← h]; rfl
    | nan => simp [resolveRefF] at h; rw [← h]; rfl
    | arr xs => simp [resolveRefF] at h; rw [← h]; rfl
    | obj f => simp [resolveRefF] at h; rw [← h]; rfl

theorem refFreeFields_mem : ∀ f, refFreeFields f = true →
    ∀ kv ∈ f, refFree kv.2 = true := by
  intro f
  induction f with
  | nil => intro _ kv h; simp at h
  | cons kv0 rest ih =>
    intro h kv hkv
    obtain ⟨k, v⟩ := kv0
    simp only [refFreeFields, Bool.and_eq_true] at h
    rcases List.mem_cons.mp hkv with rfl | hkv
    · exact h.1.2
    · exact ih h.2 kv hkv

theorem refFreeFields_keys : ∀ f, refFreeFields f = true →
    ∀ kv ∈ f, kv.1 ≠ "$ref" := by
  intro f
  induction f with
  | nil => intro _ kv h; simp at h
  | cons kv0 rest ih =>
    intro h kv hkv
    obtain ⟨k, v⟩ := kv0
    simp only [refFreeFields, Bool.and_eq_true] at h
    rcases List.mem_cons.mp hkv with rfl | hkv
    · simpa using h.1.1
    · exact ih h.2 kv hkv

theorem refFreeList_mem : ∀ xs, refFreeList xs = true →
    ∀ x ∈ xs, refFree x = true := by
  intro xs
  induction xs with
  | nil => intro _ x h; simp at h
  | cons x0 rest ih =>
    intro h x hx
    simp only [refFreeList, Bool.and_eq_true] at h
    rcases List.mem_cons.mp hx with rfl | hx
    · exact h.1
    · exact ih h.2 x hx

theorem refFree_jsGet (j : Json) (k : String) (h : refFree j = true) :
    refFree (jsGet j k) = true := by
  cases j with
  | obj f =>
    simp only [jsGet, jsGetOpt]
    cases hl : lookupField f k with
    | none => rfl
    | some v =>
      simpa using refFreeFields_mem f (by simpa [refFree] using h) _
        (lookupField_mem f k v hl)
  | arr xs =>
    simp only [jsGet, jsGetOpt]
    cases hi : arrIndex k.data with
    | none => rfl
    | some i =>
      show refFree ((xs.get? i).getD Json.null) = true
      cases hg : xs.get? i with
      | none => rfl
      | some v =>
        simpa using refFreeList_mem xs (by simpa [refFree] using h) _ (List.get?_mem hg)
  | null => rfl
  | bool b => rfl
  | num v => rfl
  | nan => rfl
  | str s => rfl

theorem refFree_entries (j : Json) (h : refFree j = true) :
    ∀ kv ∈ jsEntries j, refFree kv.2 = true := by
  cases j with
  | obj f => exact refFreeFields_mem f (by simpa [refFree] using h)
  | null => intro kv h1; simp [jsEntries] at h1
  | bool b => intro kv h1; simp [jsEntries] at h1
  | num v => intro kv h1; simp [jsEntries] at h1
  | nan => intro kv h1; simp [jsEntries] at h1
  | str s => intro kv h1; simp [jsEntries] at h1
  | arr xs => intro kv h1; simp [jsEntries] at h1

theorem refFree_iter (j : Json) (h : refFree j = true) :
    ∀ x ∈ iterList j, refFree x = true := by
  cases j with
  | arr xs => exact refFreeList_mem xs (by simpa [refFree] using h)
  | null => intro x h1; simp [iterList] at h1
  | bool b => intro x h1; simp [iterList] at h1
  | num v => intro x h1; simp [iterList] at h1
  | nan => intro x h1; simp [iterList] at h1
  | str s => intro x h1; simp [iterList] at h1
  | obj f => intro x h1; simp [iterList] at h1

theorem refFree_no_ref (s : Json) (h : refFree s = true) :
    jsGet s "$ref" = Json.null := by
  cases s with
  | obj f =>
    simp [jsGet, jsGetOpt,
      lookupField_eq_none_of_keys f "$ref"
        (refFreeFields_keys f (by simpa [refFree] using h))]
  | arr xs =>
    have hi : arrIndex "$ref".data = none := by decide
    simp [jsGet, jsGetOpt, hi]
  | null => rfl
  | bool b => rfl
  | num v => rfl
  | nan => rfl
  | str s1 => rfl

theorem crFreeFields_mem : ∀ f, crFreeFields f = true →
    ∀ kv ∈ f, crFree kv.2 = true := by
  intro f
  induction f with
  | nil => intro _ kv h; simp at h
  | cons kv0 rest ih =>
    intro h kv hkv
    obtain ⟨k, v⟩ := kv0
    simp only [crFreeFields, Bool.and_eq_true] at h
    rcases List.mem_cons.mp hkv with rfl | hkv
    · exact h.1
    · exact ih h.2 kv hkv

theorem crFreeList_mem : ∀ xs, crFreeList xs = true →
    ∀ x ∈ xs, crFree x = true := by
  intro xs
  induction xs with
  | nil => intro _ x h; simp at h
  | cons x0 rest ih =>
    intro h x hx
    simp only [crFreeList, Bool.and_eq_true] at h
    rcases List.mem_cons.mp hx with rfl | hx
    · exact h.1
    · exact ih h.2 x hx

theorem crFreeFields_of_forall : ∀ f, (∀ kv ∈ f, crFree kv.2 = true) →
    crFreeFields f = true := by
  intro f
  induction f with
  | nil => intro _; rfl
  | cons kv0 rest ih =>
    intro h
    obtain ⟨k, v⟩ := kv0
    simp only [crFreeFields, Bool.and_eq_true]
    exact ⟨h (k, v) (by simp), ih (fun kv hkv => h kv (List.mem_cons_of_mem _ hkv))⟩

theorem crFree_jsGet (j : Json) (k : String) (h : crFree j = true) :
    crFree (jsGet j k) = true := by
  cases j with
  | obj f =>
    simp only [jsGet, jsGetOpt]
    cases hl : lookupField f k with
    | none => rfl
    | some v =>
      simpa using crFreeFields_mem f (by simpa [crFree] using h) _
        (lookupField_mem f k v hl)
  | arr xs =>
    simp only [jsGet, jsGetOpt]
    cases hi : arrIndex k.data with
    | none => rfl
    | some i =>
      show crFree ((xs.get? i).getD Json.null) = true
      cases hg : xs.get? i with
      | none => rfl
      | some v =>
        simpa using crFreeList_mem xs (by simpa [crFree] using h) _ (List.get?_mem hg)
  | null => rfl
  | bool b => rfl
  | num v => rfl
  | nan => rfl
  | str s => rfl

theorem crFree_entries (j : Json) (h : crFree j = true) :
    ∀ kv ∈ jsEntries j, crFree kv.2 = true := by
  cases j with
  | obj f => exact crFreeFields_mem f (by simpa [crFree] using h)
  | null => intro kv h1; simp [jsEntries] at h1
  | bool b => intro kv h1; simp [jsEntries] at h1
  | num v => intro kv h1; simp [jsEntries] at h1
  | nan => intro kv h1; simp [jsEntries] at h1
  | str s => intro kv h1; simp [jsEntries] at h1
  | arr xs => intro kv h1; simp [jsEntries] at h1

theorem crFree_iter (j : Json) (h : crFree j = true) :
    ∀ x ∈ iterList j, crFree x = true := by
  cases j with
  | arr xs => exact crFreeList_mem xs (by simpa [crFree] using h)
  | null => intro x h1; simp [iterList] at h1
  | bool b => intro x h1; simp [iterList] at h1
  | num v => intro x h1; simp [iterList] at h1
  | nan => intro x h1; simp [iterList] at h1
  | str s => intro x h1; simp [iterList] at h1
  | obj f => intro x h1; simp [iterList] at h1

/-! Value-tracking lemmas for the fold helpers of schema resolution. -/

theorem foldl_setField_values (Q : Json → Prop) :
    ∀ (l acc : List (String × Json)),
      (∀ kv ∈ acc, Q kv.2) → (∀ kv ∈ l, Q kv.2) →
      ∀ kv ∈ List.foldl (fun a kv => setField a kv.1 kv.2) acc l, Q kv.2 := by
  intro l
  induction l with
  | nil => intro acc hacc _ kv hkv; exact hacc kv hkv
  | cons kv0 rest ih =>
    intro acc hacc hl kv hkv
    refine ih (setField acc kv0.1 kv0.2) ?_ (fun kv h => hl kv (List.mem_cons_of_mem _ h))
      kv hkv
    intro kv1 hkv1
    rcases mem_setField acc kv0.1 kv0.2 kv1 hkv1 with h1 | h1
    · rw [h1]; exact hl kv0 (by simp)
    · exact hacc kv1 h1

theorem propsMapF_values (Q : Json → Prop) (g : Json → Option Json) :
    ∀ l acc ps, propsMapF g l acc = some ps →
      (∀ kv ∈ acc, Q kv.2) →
      (∀ kv ∈ l, ∀ w, g kv.2 = some w → Q w) →
      ∀ kv ∈ ps, Q kv.2 := by
  intro l
  induction l with
  | nil =>
    intro acc ps h hacc _
    simp only [propsMapF, Option.some.injEq] at h
    rw [← h]; exact hacc
  | cons kv0 rest ih =>
    intro acc ps h hacc hl
    obtain ⟨k, v⟩ := kv0
    simp only [propsMapF] at h
    cases hg : g v with
    | none => rw [hg] at h; simp at h
    | some w =>
      rw [hg] at h
      refine ih _ _ h ?_ (fun kv hkv w2 hw2 => hl kv (List.mem_cons_of_mem _ hkv) w2 hw2)
      intro kv hkv
      rcases mem_setField acc k w kv hkv with h1 | h1
      · rw [h1]; exact hl (k, v) (by simp) w hg
      · exact hacc kv h1

theorem allOfMergeF_values (Q : Json → Prop) (g : Json → Option Json) :
    ∀ l acc ps, allOfMergeF g l acc = some ps →
      (∀ kv ∈ acc, Q kv.2) →
      (∀ item ∈ l, ∀ w, g item = some w →
        ∀ kv ∈ jsEntries (jsGet w "properties"), Q kv.2) →
      ∀ kv ∈ ps, Q kv.2 := by
  intro l
  induction l with
  | nil =>
    intro acc ps h hacc _
    simp only [allOfMergeF, Option.some.injEq] at h
    rw [← h]; exact hacc
  | cons item rest ih =>
    intro acc ps h hacc hl
    simp only [allOfMergeF] at h
    cases hg : g item with
    | none => rw [hg] at h; simp at h
    | some w =>
      rw [hg] at h
      refine ih _ _ h ?_ (fun it hit w2 hw2 => hl it (List.mem_cons_of_mem _ hit) w2 hw2)
      by_cases ht : truthy (jsGet w "properties") = true
      · rw [if_pos ht] at *
        intro kv hkv
        exact foldl_setField_values Q _ acc hacc
          (hl item (by simp) w hg) kv hkv
      · rw [if_neg ht]
        exact hacc

theorem propsMapF_keys_nodup (g : Json → Option Json) :
    ∀ l acc ps, propsMapF g l acc = some ps →
      (acc.map Prod.fst).Nodup → (ps.map Prod.fst).Nodup := by
  intro l
  induction l with
  | nil =>
    intro acc ps h hacc
    simp only [propsMapF, Option.some.injEq] at h
    rw [← h]; exact hacc
  | cons kv0 rest ih =>
    intro acc ps h hacc
    obtain ⟨k, v⟩ := kv0
    simp only [propsMapF] at h
    cases hg : g v with
    | none => rw [hg] at h; simp at h
    | some w =>
      rw [hg] at h
      exact ih _ _ h (nodup_keys_setField acc k w hacc)

theorem propsMapF_rebuild (g : Json → Option Json) :
    ∀ ps acc, (∀ kv ∈ ps, g kv.2 = some kv.2) →
      (ps.map Prod.fst).Nodup →
      (∀ k ∈ ps.map Prod.fst, k ∉ acc.map Prod.fst) →
      propsMapF g ps acc = some (acc ++ ps) := by
  intro ps
  induction ps with
  | nil => intro acc _ _ _; simp [propsMapF]
  | cons kv0 rest ih =>
    intro acc hfix hnodup hdisj
    obtain ⟨k, v⟩ := kv0
    simp only [propsMapF]
    rw [hfix (k, v) (by simp)]
    show propsMapF g rest (setField acc k v) = some (acc ++ (k, v) :: rest)
    rw [setField_of_not_mem acc k v (hdisj k (by simp))]
    have hcons : (k :: rest.map Prod.fst).Nodup := by simpa using hnodup
    have hnodup1 : (rest.map Prod.fst).Nodup := hcons.of_cons
    have hknotin : k ∉ rest.map Prod.fst := (List.nodup_cons.mp hcons).1
    rw [ih (acc ++ [(k, v)]) (fun kv h => hfix kv (List.mem_cons_of_mem _ h)) hnodup1 ?_]
    · simp
    · intro k1 hk1
      simp only [List.map_append, List.map_cons, List.map_nil, List.mem_append,
        List.mem_singleton]
      push_neg
      constructor
      · exact hdisj k1 (by simp [hk1])
      · intro hx
        simp only [hx] at hk1
        exact absurd hk1 hknotin

theorem exists_uniform_fuel {α : Type} (P : α → Nat → Prop)
    (hmono : ∀ a m m2, m ≤ m2 → P a m → P a m2) :
    ∀ l : List α, (∀ a ∈ l, ∃ m, P a m) → ∃ M, ∀ a ∈ l, P a M := by
  intro l
  induction l with
  | nil => intro _; exact ⟨0, by simp⟩
  | cons x rest ih =>
    intro h
    obtain ⟨m, hm⟩ := h x (by simp)
    obtain ⟨M, hM⟩ := ih (fun a ha => h a (List.mem_cons_of_mem _ ha))
    refine ⟨max m M, ?_⟩
    intro a ha
    rcases List.mem_cons.mp ha with rfl | ha
    · exact hmono a m _ (le_max_left m M) hm
    · exact hmono a M _ (le_max_right m M) (hM a ha)

/-- Schema resolution introduces no circular-marker description string on
reference-free input: the marker can only enter through `resolveRef`,
which reference-free schemas never reach. -/
theorem crFree_resolveSchemaF (d : Json) :
    ∀ n s vis r, refFree s = true → crFree s = true →
      resolveSchemaF d n s vis = some r → crFree r = true := by
  intro n
  induction n with
  | zero => intro s vis r _ _ h; simp [resolveSchemaF] at h
  | succ k ih =>
    intro s vis r hrf hcr h
    simp only [resolveSchemaF] at h
    by_cases h1 : truthy s = false
    · rw [if_pos h1] at h
      simp only [Option.some.injEq] at h
      rw [← h]; rfl
    · rw [if_neg h1] at h
      have h2 : ¬(truthy (jsGet s "$ref") = true) := by
        rw [refFree_no_ref s hrf]; simp [truthy]
      rw [if_neg h2] at h
      by_cases h3 : jsGet s "type" = Json.str "array" ∧ truthy (jsGet s "items") = true
      · rw [if_pos h3] at h
        obtain ⟨f, rfl⟩ := eq_obj_of_jsGet_type s "array" h3.1
        cases hri : resolveSchemaF d k (jsGet (Json.obj f) "items") vis with
        | none => rw [hri] at h; simp at h
        | some ri =>
          rw [hri] at h
          simp only [Option.some.injEq] at h
          have hricr : crFree ri = true :=
            ih _ vis ri (refFree_jsGet _ _ hrf) (crFree_jsGet _ _ hcr) hri
          rw [← h]
          show crFreeFields (setField f "items" ri) = true
          apply crFreeFields_of_forall
          intro kv hkv
          rcases mem_setField f "items" ri kv hkv with heq | hmem
          · rw [heq]; exact hricr
          · exact crFreeFields_mem f (by simpa [crFree] using hcr) kv hmem
      · rw [if_neg h3] at h
        by_cases h4 : jsGet s "type" = Json.str "object" ∧ truthy (jsGet s "properties") = true
        · rw [if_pos h4] at h
          obtain ⟨f, rfl⟩ := eq_obj_of_jsGet_type s "object" h4.1
          cases hps : propsMapF (fun v => resolveSchemaF d k v vis)
              (jsEntries (jsGet (Json.obj f) "properties")) [] with
          | none => rw [hps] at h; simp at h
          | some ps =>
            rw [hps] at h
            simp only [Option.some.injEq] at h
            have hpscr : ∀ kv ∈ ps, crFree kv.2 = true := by
              refine propsMapF_values (fun w => crFree w = true) _ _ _ _ hps (by simp) ?_
              intro kv hkv w hw
              exact ih _ vis w
                (refFree_entries _ (refFree_jsGet _ _ hrf) kv hkv)
                (crFree_entries _ (crFree_jsGet _ _ hcr) kv hkv) hw
            rw [← h]
            show crFreeFields (setField f "properties" (Json.obj ps)) = true
            apply crFreeFields_of_forall
            intro kv hkv
            rcases mem_setField f "properties" (Json.obj ps) kv hkv with heq | hmem
            · rw [heq]
              show crFreeFields ps = true
              exact crFreeFields_of_forall ps hpscr
            · exact crFreeFields_mem f (by simpa [crFree] using hcr) kv hmem
        · rw [if_neg h4] at h
          by_cases h5 : truthy (jsGet s "allOf") = true
          · rw [if_pos h5] at h
            cases hps : allOfMergeF (fun item => resolveSchemaF d k item vis)
                (iterList (jsGet s "allOf")) [] with
            | none => rw [hps] at h; simp at h
            | some ps =>
              rw [hps] at h
              simp only [Option.some.injEq] at h
              have hpscr : ∀ kv ∈ ps, crFree kv.2 = true := by
                refine allOfMergeF_values (fun w => crFree w = true) _ _ _ _ hps (by simp) ?_
                intro item hitem w hw kv hkv
                have hwcr : crFree w = true :=
                  ih _ vis w
                    (refFree_iter _ (refFree_jsGet _ _ hrf) item hitem)
                    (crFree_iter _ (crFree_jsGet _ _ hcr) item hitem) hw
                exact crFree_entries _ (crFree_jsGet _ _ hwcr) kv hkv
              rw [← h]
              show (crFree (Json.str "object") && (crFree (Json.obj ps) && crFreeFields [])) = true
              simp only [Bool.and_eq_true]
              refine ⟨by decide, ?_, rfl⟩
              show crFreeFields ps = true
              exact crFreeFields_of_forall ps hpscr
          · rw [if_neg h5] at h
            simp only [Option.some.injEq] at h
            rw [← h]; exact hcr

/-- A tree without the marker description string holds no circular-marker
node, since every marker carries that string. -/
theorem countMarkers_eq_zero_of_crFree :
    ∀ n j, jsize j ≤ n → crFree j = true → countMarkers j = 0 := by
  intro n
  induction n with
  | zero => intro j h _; exact absurd (Nat.lt_of_lt_of_le (jsize_pos j) h) (by simp)
  | succ n ih =>
    have ihFields : ∀ f, jsizeFields f ≤ n → crFreeFields f = true →
        countMarkersFields f = 0 := by
      intro f
      induction f with
      | nil => intro _ _; rfl
      | cons kv rest ihr =>
        intro hsz hcr
        obtain ⟨k, v⟩ := kv
        simp only [crFreeFields, Bool.and_eq_true] at hcr
        simp only [jsizeFields] at hsz
        simp only [countMarkersFields]
        rw [ih v (by omega) hcr.1, ihr (by omega) hcr.2]
    have ihList : ∀ xs, jsizeList xs ≤ n → crFreeList xs = true →
        countMarkersList xs = 0 := by
      intro xs
      induction xs with
      | nil => intro _ _; rfl
      | cons x rest ihr =>
        intro hsz hcr
        simp only [crFreeList, Bool.and_eq_true] at hcr
        simp only [jsizeList] at hsz
        simp only [countMarkersList]
        rw [ih x (by omega) hcr.1, ihr (by omega) hcr.2]
    intro j hsz hcr
    cases j with
    | obj f =>
      have hne : jsonBEq (Json.obj f) circularMarker = false := by
        by_contra hx
        have hmk : Json.obj f = circularMarker :=
          (jsonBEq_iff _ _).mp (by simpa using hx)
        rw [hmk] at hcr
        exact absurd hcr (by decide)
      simp only [countMarkers, hne]
      simp only [jsize] at hsz
      simpa using ihFields f (by omega) (by simpa [crFree] using hcr)
    | arr xs =>
      simp only [countMarkers]
      simp only [jsize] at hsz
      exact ihList xs (by omega) (by simpa [crFree] using hcr)
    | null => rfl
    | bool b => rfl
    | num v => rfl
    | nan => rfl
    | str s => rfl

/-- C5: sibling non-interference. For any document, any non-empty
reference string whose one-step resolution yields a reference-free,
marker-string-free target `U` resolving to `RU`, the object schema whose
two properties `a` and `b` each hold that reference resolves so that both
properties carry the identical full content `RU`, and `RU` contains no
circular marker: the copied visited set handed to `resolveRef` keeps the
two sibling branches independent. -/
theorem resolveSchema_sibling_non_interference :
    ∀ (d : Json) (uref : String) (U RU : Json) (nU : Nat),
      uref ≠ "" →
      resolveRefF d 1 (Json.str uref) [] = some U →
      refFree U = true → crFree U = true →
      resolveSchemaF d nU U [] = some RU →
      (resolveSchemaF d (nU + 2) (siblingSchema uref) [] =
        some (Json.obj [("type", Json.str "object"),
          ("properties", Json.obj [("a", RU), ("b", RU)])]) ∧
       countMarkers RU = 0) := by
  intro d uref U RU nU h1 h2 h3 h4 h5
  have hRUcr : crFree RU = true := crFree_resolveSchemaF d nU U [] RU h3 h4 h5
  have hcount : countMarkers RU = 0 :=
    countMarkers_eq_zero_of_crFree (jsize RU) RU le_rfl hRUcr
  refine ⟨?_, hcount⟩
  have htru : truthy (Json.str uref) = true := by simp [truthy, h1]
  have hres : resolveRefF d (nU + 1) (Json.str uref) [] = some U :=
    resolveRefF_mono d 1 (nU + 1) _ _ U (by omega) h2
  have hprop : resolveSchemaF d (nU + 1) (Json.obj [("$ref", Json.str uref)]) [] = some RU := by
    simp only [resolveSchemaF]
    rw [if_neg (show ¬(truthy (Json.obj [("$ref", Json.str uref)]) = false) by
      simp [truthy])]
    rw [if_pos (show truthy (jsGet (Json.obj [("$ref", Json.str uref)]) "$ref") = true from by
      rw [show jsGet (Json.obj [("$ref", Json.str uref)]) "$ref" = Json.str uref from rfl]
      exact htru)]
    rw [show jsGet (Json.obj [("$ref", Json.str uref)]) "$ref" = Json.str uref from rfl]
    rw [hres]
    exact h5
  have step2 : resolveSchemaF d (nU + 2) (siblingSchema uref) [] =
      (match propsMapF (fun v => resolveSchemaF d (nU + 1) v [])
          [("a", Json.obj [("$ref", Json.str uref)]),
           ("b", Json.obj [("$ref", Json.str uref)])] [] with
        | none => none
        | some ps => some (jsSet (siblingSchema uref) "properties" (Json.obj ps))) := rfl
  rw [step2]
  rw [show propsMapF (fun v => resolveSchemaF d (nU + 1) v [])
      [("a", Json.obj [("$ref", Json.str uref)]),
       ("b", Json.obj [("$ref", Json.str uref)])] [] = some [("a", RU), ("b", RU)] from by
    simp only [propsMapF, hprop]
    rfl]
  rfl

/-- Witness for C5: both sibling references to the `User` schema of
`userDoc` resolve to the full `User` content with no circular marker. -/
theorem resolveSchema_sibling_non_interference_witness :
    resolveSchemaF userDoc 5 (siblingSchema "#/components/schemas/User") [] =
      some (Json.obj [("type", Json.str "object"),
        ("properties", Json.obj [("a", userNode), ("b", userNode)])]) ∧
    countMarkers userNode = 0 :=
  resolveSchema_sibling_non_interference userDoc "#/components/schemas/User"
    userNode userNode 3 (by decide) (by decide) (by decide) (by decide) (by decide)

/-- C3 (amended): `resolveSchema` is idempotent on `allOf`-free inputs.
If neither the document nor the schema contains an `allOf` key and the
resolution of `s` returns `r`, then resolving `r` returns `r` again (with
some sufficient fuel). With `allOf` present the property fails, because
the merge can lift unresolved property definitions out of members that
are not resolved as objects; see the counterexample. -/
theorem resolveSchema_idempotent_allOfFree (d : Json) (hd : allOfFree d = true) :
    ∀ n s r, allOfFree s = true → resolveSchemaF d n s [] = some r →
      ∃ m, resolveSchemaF d m r [] = some r := by
  intro n
  induction n with
  | zero => intro s r _ h; simp [resolveSchemaF] at h
  | succ k ih =>
    intro s r hs h
    simp only [resolveSchemaF] at h
    by_cases h1 : truthy s = false
    · rw [if_pos h1] at h
      simp only [Option.some.injEq] at h
      exact ⟨k + 1, by rw [← h]; rfl⟩
    · rw [if_neg h1] at h
      by_cases h2 : truthy (jsGet s "$ref") = true
      · rw [if_pos h2] at h
        cases hr : resolveRefF d (k + 1) (jsGet s "$ref") [] with
        | none => rw [hr] at h; simp at h
        | some t =>
          rw [hr] at h
          exact ih t r (allOfFree_resolveRefF d hd (k + 1) _ [] t hr) h
      · rw [if_neg h2] at h
        by_cases h3 : jsGet s "type" = Json.str "array" ∧ truthy (jsGet s "items") = true
        · rw [if_pos h3] at h
          obtain ⟨f, rfl⟩ := eq_obj_of_jsGet_type s "array" h3.1
          cases hri : resolveSchemaF d k (jsGet (Json.obj f) "items") [] with
          | none => rw [hri] at h; simp at h
          | some ri =>
            rw [hri] at h
            simp only [Option.some.injEq] at h
            obtain ⟨m, hm⟩ := ih _ ri (allOfFree_jsGet _ _ hs) hri
            refine ⟨m + 1, ?_⟩
            subst h
            simp only [resolveSchemaF]
            rw [if_neg (show ¬(truthy (jsSet (Json.obj f) "items" ri) = false) from by
              simp [jsSet, truthy])]
            rw [if_neg (show
              ¬(truthy (jsGet (jsSet (Json.obj f) "items" ri) "$ref") = true) from by
              rw [jsGet_jsSet_ne f "items" "$ref" ri (by decide)]
              exact h2)]
            have htype : jsGet (jsSet (Json.obj f) "items" ri) "type" = Json.str "array" := by
              rw [jsGet_jsSet_ne f "items" "type" ri (by decide)]
              exact h3.1
            have hitems : jsGet (jsSet (Json.obj f) "items" ri) "items" = ri :=
              jsGet_jsSet_self f "items" ri
            by_cases htri : truthy ri = true
            · rw [if_pos ⟨htype, by rw [hitems]; exact htri⟩]
              rw [hitems, hm]
              show some (Json.obj (setField (setField f "items" ri) "items" ri)) =
                some (Json.obj (setField f "items" ri))
              rw [setField_setField]
            · rw [if_neg (show ¬(jsGet (jsSet (Json.obj f) "items" ri) "type" =
                  Json.str "array" ∧
                  truthy (jsGet (jsSet (Json.obj f) "items" ri) "items") = true) from by
                intro hcontra
                rw [hitems] at hcontra
                exact htri hcontra.2)]
              rw [if_neg (show ¬(jsGet (jsSet (Json.obj f) "items" ri) "type" =
                  Json.str "object" ∧
                  truthy (jsGet (jsSet (Json.obj f) "items" ri) "properties") = true) from by
                intro hcontra
                obtain ⟨hx, _⟩ := hcontra
                rw [htype] at hx
                exact absurd ((jsonBEq_iff _ _).mpr hx) (by decide))]
              rw [if_neg (show
                ¬(truthy (jsGet (jsSet (Json.obj f) "items" ri) "allOf") = true) from by
                rw [jsGet_jsSet_ne f "items" "allOf" ri (by decide)]
                rw [allOfFree_no_allOf _ hs]
                simp [truthy])]
        · rw [if_neg h3] at h
          by_cases h4 : jsGet s "type" = Json.str "object" ∧
              truthy (jsGet s "properties") = true
          · rw [if_pos h4] at h
            obtain ⟨f, rfl⟩ := eq_obj_of_jsGet_type s "object" h4.1
            cases hps : propsMapF (fun v => resolveSchemaF d k v [])
                (jsEntries (jsGet (Json.obj f) "properties")) [] with
            | none => rw [hps] at h; simp at h
            | some ps =>
              rw [hps] at h
              simp only [Option.some.injEq] at h
              have hfix0 : ∀ kv ∈ ps, ∃ m, resolveSchemaF d m kv.2 [] = some kv.2 := by
                refine propsMapF_values (fun w => ∃ m, resolveSchemaF d m w [] = some w)
                  _ _ _ _ hps (by simp) ?_
                intro kv hkv w hw
                exact ih kv.2 w (allOfFree_entries _ (allOfFree_jsGet _ _ hs) kv hkv) hw
              obtain ⟨M, hM⟩ := exists_uniform_fuel
                (fun (kv : String × Json) m => resolveSchemaF d m kv.2 [] = some kv.2)
                (fun kv m m2 hle hP => resolveSchemaF_mono d m m2 kv.2 [] kv.2 hle hP)
                ps hfix0
              have hnodup : (ps.map Prod.fst).Nodup :=
                propsMapF_keys_nodup _ _ _ _ hps (by simp)
              refine ⟨M + 1, ?_⟩
              subst h
              simp only [resolveSchemaF]
              rw [if_neg (show
                ¬(truthy (jsSet (Json.obj f) "properties" (Json.obj ps)) = false) from by
                simp [jsSet, truthy])]
              rw [if_neg (show ¬(truthy
                  (jsGet (jsSet (Json.obj f) "properties" (Json.obj ps)) "$ref") = true) from by
                rw [jsGet_jsSet_ne f "properties" "$ref" _ (by decide)]
                exact h2)]
              have htype : jsGet (jsSet (Json.obj f) "properties" (Json.obj ps)) "type" =
                  Json.str "object" := by
                rw [jsGet_jsSet_ne f "properties" "type" _ (by decide)]
                exact h4.1
              rw [if_neg (show ¬(jsGet (jsSet (Json.obj f) "properties" (Json.obj ps)) "type" =
                  Json.str "array" ∧
                  truthy (jsGet (jsSet (Json.obj f) "properties" (Json.obj ps)) "items") =
                    true) from by
                intro hcontra
                obtain ⟨hx, _⟩ := hcontra
                rw [htype] at hx
                exact absurd ((jsonBEq_iff _ _).mpr hx) (by decide))]
              rw [if_pos ⟨htype, by rw [jsGet_jsSet_self]; rfl⟩]
              rw [jsGet_jsSet_self f "properties" (Json.obj ps)]
              show (match propsMapF (fun v => resolveSchemaF d M v []) ps [] with
                | none => none
                | some ps2 => some (jsSet (jsSet (Json.obj f) "properties" (Json.obj ps))
                    "properties" (Json.obj ps2))) =
                some (jsSet (Json.obj f) "properties" (Json.obj ps))
              rw [propsMapF_rebuild _ ps [] (fun kv hkv => hM kv hkv) hnodup (by simp)]
              show some (Json.obj (setField (setField f "properties" (Json.obj ps))
                  "properties" (Json.obj ([] ++ ps)))) = _
              rw [List.nil_append, setField_setField]
              rfl
          · rw [if_neg h4] at h
            have h5 : ¬(truthy (jsGet s "allOf") = true) := by
              rw [allOfFree_no_allOf s hs]; simp [truthy]
            rw [if_neg h5] at h
            simp only [Option.some.injEq] at h
            refine ⟨k + 1, ?_⟩
            subst h
            simp only [resolveSchemaF]
            rw [if_neg h1, if_neg h2, if_neg h3, if_neg h4, if_neg h5]

/-- Witness for C3 (amended): a concrete allOf-free schema resolves to
itself, and resolving the output again reproduces it. -/
theorem resolveSchema_idempotent_allOfFree_witness :
    ∃ m, resolveSchemaF (Json.obj []) m (Json.obj [("type", Json.str "string")]) [] =
      some (Json.obj [("type", Json.str "string")]) :=
  resolveSchema_idempotent_allOfFree (Json.obj []) (by decide) 1
    (Json.obj [("type", Json.str "string")]) (Json.obj [("type", Json.str "string")])
    (by decide) (by decide)

/-- Counterexample for C3: resolving `allOfUntyped` over `plainDoc` is not
idempotent. The first resolution lifts an unresolved reference out of an
`allOf` member that carries `properties` without `type: object`; the
second resolution then dereferences it, producing a different tree. -/
theorem resolveSchema_not_idempotent :
    resolveSchemaF plainDoc 4 allOfUntyped [] = some allOfUntypedOnce ∧
    resolveSchemaF plainDoc 4 allOfUntypedOnce [] = some allOfUntypedTwice ∧
    allOfUntypedOnce ≠ allOfUntypedTwice :=
  ⟨by decide, by decide, by decide⟩

end Kohlrabi
